import Mathlib

/-
Verification of the pybox incremental linear-memory snapshot engine
(`crates/pybox-python/src/snapshot.py`) and of the host-side JSON-RPC
handler layer (`python/pybox/box.py`).

Guest linear memory is modelled as a `List Nat` of byte values.  The
128-bit BLAKE2b digest used by the engine is abstracted as an arbitrary
function `h : List Byte → List Byte`; theorems that depend on the
engine's documented collision-freeness assumption take
`Function.Injective h` as a hypothesis.

Python exceptions are mapped to the spec's error kinds:
`RuntimeError("call capture_base() first!")` and
`RuntimeError("No base snapshot available")` are `NotReady`;
`IndexError` (bad checkpoint index) and `ValueError` (rollback steps < 1)
are `OutOfRange`.
-/

/-- Bytes of guest linear memory, modelled as natural numbers. -/
abbrev Byte := Nat

/-- Ceiling division `(n + block_size - 1) // block_size`: the number of
`B`-byte blocks covering `n` bytes of memory. -/
def numBlocks (B n : Nat) : Nat := (n + B - 1) / B

/-- The Python slice `m[s:e]` of a byte buffer. -/
def byteSlice (m : List Byte) (s e : Nat) : List Byte := (m.drop s).take (e - s)

/-- Block `i` of buffer `m` where the logical data length is `n`:
`m[i*B : min(i*B + B, n)]` (the loops in `capture_delta`,
`_compute_block_hashes` and `_expand_base_memory` all slice this way). -/
def blockSliceN (B : Nat) (m : List Byte) (n i : Nat) : List Byte :=
  byteSlice m (i * B) (min (i * B + B) n)

/-- Block `i` of buffer `m` with the buffer's own length as data length. -/
def blockOf (B : Nat) (m : List Byte) (i : Nat) : List Byte :=
  blockSliceN B m m.length i

/-- wasmtime's `memory.write(store, data, offset)`: overwrite the bytes
`[offset, offset + len(data))` of the guest memory. -/
def writeMem (m : List Byte) (off : Nat) (data : List Byte) : List Byte :=
  m.take off ++ data ++ m.drop (off + data.length)

/-- A captured delta: optional name, map from block index to the block's
bytes at capture, the memory size observed at capture, and the dirty
count (`Checkpoint` dataclass in the source).  The dict is modelled as
an association list in insertion order. -/
structure Checkpoint where
  name : Option String
  dirty_blocks : List (Nat × List Byte)
  memory_size : Nat
  dirty_count : Nat
deriving DecidableEq, Inhabited

/-- Method `Checkpoint.memory_usage`: total bytes held by the dirty blocks. -/
def Checkpoint.memory_usage (c : Checkpoint) : Nat :=
  (c.dirty_blocks.map (fun p => p.2.length)).sum

/-- Error kinds raised by the snapshot engine, named as in the spec
(§7): `NotReady` for the missing-base `RuntimeError`s, `OutOfRange` for
`IndexError` on a bad checkpoint index and `ValueError` on a rollback
step below one. -/
inductive SnapErr where
  | NotReady
  | OutOfRange
deriving DecidableEq

/-- State of `WASMSnapshot`. -/
structure WASMSnapshot where
  block_size : Nat
  base_memory : Option (List Byte)
  block_hashes : List (List Byte)
  checkpoints : List Checkpoint
  total_blocks : Nat
deriving DecidableEq

/-- Constructor `WASMSnapshot.__init__(block_size)`. -/
def WASMSnapshot.init (block_size : Nat) : WASMSnapshot :=
  { block_size := block_size
    base_memory := none
    block_hashes := []
    checkpoints := []
    total_blocks := 0 }

/-- Method `_compute_block_hashes`: one digest per block of `data`. -/
def computeBlockHashes (h : List Byte → List Byte) (B : Nat) (data : List Byte) :
    List (List Byte) :=
  (List.range (numBlocks B data.length)).map (fun i => h (blockOf B data i))

/-- Method `capture_base(memory, store)`: deep-copy the guest memory as the
base image, compute the block-hash vector, set `_total_blocks`, and
return the captured size.  The source performs no already-captured
check. -/
def WASMSnapshot.capture_base (s : WASMSnapshot) (h : List Byte → List Byte)
    (mem : List Byte) : WASMSnapshot × Nat :=
  ({ s with
      base_memory := some mem
      block_hashes := computeBlockHashes h s.block_size mem
      total_blocks := numBlocks s.block_size mem.length }, mem.length)

/-- Method `_expand_base_memory(current_mem, new_num_blocks)`: zero-extend the
base image to the new length, copy the live memory's tail into the
extension, hash the newly covered blocks and append those digests. -/
def WASMSnapshot.expand_base_memory (s : WASMSnapshot) (h : List Byte → List Byte)
    (cur : List Byte) (newNumBlocks : Nat) : WASMSnapshot :=
  let base := s.base_memory.getD []
  let expanded := base ++ cur.drop base.length
  { s with
      base_memory := some expanded
      block_hashes := s.block_hashes ++
        (List.range (newNumBlocks - s.total_blocks)).map
          (fun j => h (blockSliceN s.block_size expanded cur.length (s.total_blocks + j)))
      total_blocks := newNumBlocks }

/-- One iteration of the dirty-detection loop in `capture_delta`: hash
block `i` of the live memory; on mismatch with the stored hash, record
the block in the dirty map and update the stored hash in place. -/
def deltaStep (h : List Byte → List Byte) (B : Nat) (mem : List Byte)
    (acc : List (List Byte) × List (Nat × List Byte)) (i : Nat) :
    List (List Byte) × List (Nat × List Byte) :=
  let cur := blockOf B mem i
  let ch := h cur
  if ch = acc.1.getD i [] then acc
  else (acc.1.set i ch, acc.2 ++ [(i, cur)])

/-- Method `capture_delta(memory, store, checkpoint_name)`: fail with
`NotReady` when no base exists; expand the base when the block count
grew; detect and record dirty blocks; append the checkpoint; return
`(dirty block count, bytes held)`. -/
def WASMSnapshot.capture_delta (s : WASMSnapshot) (h : List Byte → List Byte)
    (mem : List Byte) (checkpoint_name : Option String) :
    Except SnapErr (WASMSnapshot × Nat × Nat) :=
  match s.base_memory with
  | none => .error .NotReady
  | some _ =>
    let data_len := mem.length
    let num_blocks := numBlocks s.block_size data_len
    let s1 := if s.total_blocks < num_blocks
              then s.expand_base_memory h mem num_blocks else s
    let r := (List.range num_blocks).foldl (deltaStep h s.block_size mem)
               (s1.block_hashes, [])
    let cp : Checkpoint := ⟨checkpoint_name, r.2, data_len, r.2.length⟩
    .ok ({ s1 with block_hashes := r.1, checkpoints := s1.checkpoints ++ [cp] },
         r.2.length, cp.memory_usage)

/-- Write every dirty block of one checkpoint to its block offset. -/
def applyBlocks (B : Nat) (blocks : List (Nat × List Byte)) (m : List Byte) :
    List Byte :=
  blocks.foldl (fun acc p => writeMem acc (p.1 * B) p.2) m

/-- Apply a sequence of checkpoints' dirty blocks in order. -/
def applyCheckpoints (B : Nat) (cps : List Checkpoint) (m : List Byte) :
    List Byte :=
  cps.foldl (fun acc cp => applyBlocks B cp.dirty_blocks acc) m

/-- Method `restore(memory, store, checkpoint_index)`: fail with `NotReady`
without a base; with no checkpoints, write the base image and return;
otherwise resolve a negative index by adding the checkpoint count, fail
with `OutOfRange` when the resolved index is below `-1` or at least the
checkpoint count, write the base image at offset 0 and then every dirty
block of checkpoints `0` through the resolved index.  The engine's own
fields are not mutated. -/
def WASMSnapshot.restore (s : WASMSnapshot) (mem : List Byte)
    (checkpoint_index : Int) : Except SnapErr (WASMSnapshot × List Byte × Nat) :=
  match s.base_memory with
  | none => .error .NotReady
  | some base =>
    if s.checkpoints.isEmpty then
      .ok (s, writeMem mem 0 base, base.length)
    else
      let idx := if checkpoint_index < 0
                 then checkpoint_index + s.checkpoints.length else checkpoint_index
      if idx < -1 ∨ (s.checkpoints.length : Int) ≤ idx then .error .OutOfRange
      else
        let mem1 := writeMem mem 0 base
        let mem2 := applyCheckpoints s.block_size
                      (s.checkpoints.take (idx + 1).toNat) mem1
        .ok (s, mem2, base.length)

/-- Method `rollback(memory, store, steps)`: reject steps below one
(`ValueError`, spec kind `OutOfRange`); clamp the target index at `-1`;
delegate to `restore`. -/
def WASMSnapshot.rollback (s : WASMSnapshot) (mem : List Byte) (steps : Int) :
    Except SnapErr (WASMSnapshot × List Byte × Nat) :=
  if steps < 1 then .error .OutOfRange
  else
    let target : Int := (s.checkpoints.length : Int) - steps - 1
    let target := if target < -1 then -1 else target
    s.restore mem target

/-- Method `clear_checkpoints()`: drop all checkpoints, keep the base. -/
def WASMSnapshot.clear_checkpoints (s : WASMSnapshot) : WASMSnapshot :=
  { s with checkpoints := [] }

/-- The dirty map produced by one `capture_delta` loop over blocks
`0 .. n-1`, compared against the hash vector `hs` as it stood when the
loop started. -/
def dirtyList (h : List Byte → List Byte) (B : Nat) (mem : List Byte)
    (hs : List (List Byte)) (n : Nat) : List (Nat × List Byte) :=
  ((List.range n).filter (fun i => decide (h (blockOf B mem i) ≠ hs.getD i []))).map
    (fun i => (i, blockOf B mem i))

/-
JSON-RPC handler layer (`python/pybox/box.py`).

JSON values are modelled by `JVal`; `json.dumps` by the executable
serializer `dumpJ` (default separators, no string escaping — the claims
only exercise payloads without special characters).  The host-escape
exception `PyboxException` is modelled by an abstract type parameter
`E`: a handler either produces a value, raises a normal Python
exception (captured as its type name and message), or raises the escape
exception carrying an `E`.
-/

/-- A JSON value. -/
inductive JVal where
  | null : JVal
  | bool : Bool → JVal
  | num : Int → JVal
  | str : String → JVal
  | arr : List JVal → JVal
  | obj : List (String × JVal) → JVal

mutual

/-- Serializer mirroring `json.dumps` with its default separators. -/
def dumpJ : JVal → String
  | .null => "null"
  | .bool b => if b then "true" else "false"
  | .num n => toString n
  | .str s => "\"" ++ s ++ "\""
  | .arr xs => "[" ++ dumpArr xs ++ "]"
  | .obj fs => "\x7b" ++ dumpObj fs ++ "\x7d"

/-- Serialize the comma-separated elements of a JSON array. -/
def dumpArr : List JVal → String
  | [] => ""
  | [x] => dumpJ x
  | x :: y :: rest => dumpJ x ++ ", " ++ dumpArr (y :: rest)

/-- Serialize the comma-separated members of a JSON object. -/
def dumpObj : List (String × JVal) → String
  | [] => ""
  | [(k, v)] => "\"" ++ k ++ "\": " ++ dumpJ v
  | (k, v) :: q :: rest => "\"" ++ k ++ "\": " ++ dumpJ v ++ ", " ++ dumpObj (q :: rest)

end

/-- Lookup mirroring `dict.get(k)` on a decoded JSON object. -/
def jLookup (fields : List (String × JVal)) (k : String) : Option JVal :=
  (fields.find? (fun p => p.1 == k)).map Prod.snd

/-- Outcome of invoking the registered callback: a returned value, a
normal Python exception (type name and message), or the raised
host-escape exception (`PyboxException`) carrying a host object. -/
inductive CallResult (E : Type) where
  | val : JVal → CallResult E
  | exc : String → String → CallResult E
  | escape : E → CallResult E

/-- Method `PyBoxJSONRPCHandler._handler_impl`: decode the request, apply the
callback to `args`/`kwargs`, encode `{result: v}` on success and
`{exception: "<Type>: <msg>"}` on a normal exception; re-raise the
host-escape exception unchanged.  When the decoded request is not an
object, or its `args`/`kwargs` have the wrong shape, CPython raises
`AttributeError`/`TypeError` inside the `try`, which the handler also
encodes as an exception response (the exact CPython message text is not
modelled; no theorem depends on those branches). -/
def handlerImpl {E : Type} (callback : List JVal → List (String × JVal) → CallResult E)
    (request : JVal) : Except E String :=
  match request with
  | .obj fields =>
    match (jLookup fields "args").getD (.arr []), (jLookup fields "kwargs").getD (.obj []) with
    | .arr args, .obj kwargs =>
      match callback args kwargs with
      | .val v => .ok (dumpJ (.obj [("result", v)]))
      | .exc ename emsg => .ok (dumpJ (.obj [("exception", .str (ename ++ ": " ++ emsg))]))
      | .escape e => .error e
    | _, _ => .ok (dumpJ (.obj [("exception", .str "TypeError: argument unpacking failed")]))
  | _ => .ok (dumpJ (.obj [("exception", .str "AttributeError: request is not an object")]))

/-
Handler registration (`PyBox.tool` in `python/pybox/box.py`).
`PyBox.tool` wraps the function in a `PyBoxJSONRPCHandler` whose handle
is `len(self._handlers)` — the current registry size — and registers it
under that handle.
-/

/-- Registration failure kinds (spec §4.B/§7). -/
inductive RegErr where
  | Conflict
deriving DecidableEq

/-- Modelled from the spec: `PyBoxReactor.register_handler` lives in the
native `pyboxcore` module, which is not part of the repository snapshot.
Per spec §4.B it records the handler in the facade's handler registry
and fails with *Conflict* when the handle is already in use. -/
def registerHandler {α : Type} (handlers : List (Nat × α)) (handle : Nat) (f : α) :
    Except RegErr (List (Nat × α)) :=
  if (handlers.map Prod.fst).contains handle then .error .Conflict
  else .ok (handlers ++ [(handle, f)])

/-- Method `PyBox.tool(func)`: assign the handle `len(self._handlers)` and
register the wrapped handler under it; return the new registry together
with the handle given to the returned `PyboxPTCTool`. -/
def PyBox.tool {α : Type} (handlers : List (Nat × α)) (f : α) :
    Except RegErr (List (Nat × α) × Nat) :=
  let handle := handlers.length
  (registerHandler handlers handle f).map (fun hs => (hs, handle))

/-- Register a sequence of tools on one engine, starting from registry
`handlers`, threading failures. -/
def toolFoldFrom {α : Type} (handlers : List (Nat × α)) (fs : List α) :
    Except RegErr (List (Nat × α)) :=
  fs.foldlM (fun hs f => (PyBox.tool hs f).map Prod.fst) handlers

/-
Operation traces for the round-trip claim: one `capture_base`, then an
interleaving of guest-memory writes and `capture_delta` calls.  The run
also records, as a ghost trace, the memory content observed at each
`capture_delta` (the bytes the claim compares the restore against).
-/

/-- A guest-memory write or a delta capture. -/
inductive SnapOp where
  | write : Nat → Byte → SnapOp
  | delta : Option String → SnapOp

/-- One trace step over (engine state, guest memory, ghost capture
trace).  `capture_delta` cannot fail here because the base was captured
before the first step; the error branch keeps the state and is proved
unreachable. -/
def stepOp (h : List Byte → List Byte) (st : WASMSnapshot × List Byte × List (List Byte))
    (op : SnapOp) : WASMSnapshot × List Byte × List (List Byte) :=
  match op with
  | .write a v => (st.1, st.2.1.set a v, st.2.2)
  | .delta name =>
    match st.1.capture_delta h st.2.1 name with
    | .ok (s', _, _) => (s', st.2.1, st.2.2 ++ [st.2.1])
    | .error _ => st

/-- Run a trace: `capture_base` on the initial memory `m0`, then the
operations in order. -/
def runOps (h : List Byte → List Byte) (B : Nat) (m0 : List Byte)
    (ops : List SnapOp) : WASMSnapshot × List Byte × List (List Byte) :=
  ops.foldl (stepOp h) (((WASMSnapshot.init B).capture_base h m0).1, m0, [])

/-
Arithmetic facts about the block count `numBlocks B n = ceil(n / B)`.
-/

/-- The loop in `capture_delta` over blocks `0 .. n-1`, starting from
hash vector `hs0` and an empty dirty map. -/
def deltaRun (h : List Byte → List Byte) (B : Nat) (mem : List Byte)
    (hs0 : List (List Byte)) (n : Nat) : List (List Byte) × List (Nat × List Byte) :=
  (List.range n).foldl (deltaStep h B mem) (hs0, [])

/-- The checkpoint appended by `capture_delta` when the loop compares
`n` blocks against hash vector `hs`. -/
def deltaCheckpoint (h : List Byte → List Byte) (B : Nat) (mem : List Byte)
    (hs : List (List Byte)) (n : Nat) (name : Option String) : Checkpoint :=
  ⟨name, dirtyList h B mem hs n, mem.length, (dirtyList h B mem hs n).length⟩

/-- Invariant maintained along a trace: the engine's bookkeeping fields
describe the base image, memory length never changes (the trace only
writes bytes), the ghost trace holds one memory image per checkpoint,
the hash vector is the digest of the memory at the last capture (or of
the base when none was taken), and replaying checkpoints `0..k` over
the base image reproduces the memory captured at checkpoint `k`. -/
structure RunInv (h : List Byte → List Byte) (B : Nat) (m0 : List Byte)
    (st : WASMSnapshot × List Byte × List (List Byte)) : Prop where
  hbs : st.1.block_size = B
  hbase : st.1.base_memory = some m0
  hT : st.1.total_blocks = numBlocks B m0.length
  hhl : st.1.block_hashes.length = st.1.total_blocks
  hmem : st.2.1.length = m0.length
  hclen : st.2.2.length = st.1.checkpoints.length
  hsize : ∀ cp ∈ st.1.checkpoints, cp.memory_size = m0.length
  hcaps : ∀ c ∈ st.2.2, c.length = m0.length
  hhash : ∀ i, i < numBlocks B m0.length →
    st.1.block_hashes.getD i [] = h (blockOf B (st.2.2.getLastD m0) i)
  hreplay : ∀ k, k < st.2.2.length →
    applyCheckpoints B (st.1.checkpoints.take (k + 1)) m0 = st.2.2.getD k []

/-- A reachable engine state used to witness the restore-validation
theorem: base `[0]`, one checkpoint with dirty block `[9]`. -/
def c6State : WASMSnapshot := ⟨1, some [0], [[9]], [⟨none, [(0, [9])], 1, 1⟩], 1⟩

/-- State for the dirty-accounting witness: base `[4, 5]`, block size
1, no checkpoints (the state `capture_base` produces on `[4, 5]`). -/
def c5State : WASMSnapshot := ⟨1, some [4, 5], [[4], [5]], [], 2⟩

/-- State for the growth witness: base `[4]`, block size 1. -/
def c8State : WASMSnapshot := ⟨1, some [4], [[4]], [], 1⟩

/-- State for the restore-drift witness: base `[0]`, one checkpoint
with dirty block `[9]`. -/
def c9State : WASMSnapshot := ⟨1, some [0], [[9]], [⟨none, [(0, [9])], 1, 1⟩], 1⟩

/-- State for the idle-delta witness: base `[4]`, block size 1. -/
def c10State : WASMSnapshot := ⟨1, some [4], [[4]], [], 1⟩

theorem numBlocks_le_iff {B n m : Nat} (hB : 0 < B) :
    numBlocks B n ≤ m ↔ n ≤ m * B := by
  unfold numBlocks
  rw [Nat.div_le_iff_le_mul_add_pred hB, Nat.mul_comm B m]
  omega

theorem le_numBlocks_mul {B n : Nat} (hB : 0 < B) : n ≤ numBlocks B n * B :=
  (numBlocks_le_iff hB).1 le_rfl

theorem numBlocks_mono {B n n' : Nat} (hB : 0 < B) (hle : n ≤ n') :
    numBlocks B n ≤ numBlocks B n' :=
  (numBlocks_le_iff hB).2 (le_trans hle (le_numBlocks_mul hB))

theorem lt_of_numBlocks_lt {B n n' : Nat} (hB : 0 < B)
    (hlt : numBlocks B n < numBlocks B n') : n < n' := by
  by_contra hc
  exact Nat.lt_irrefl _ (Nat.lt_of_lt_of_le hlt (numBlocks_mono hB (by omega)))

theorem div_lt_numBlocks {B a n : Nat} (hB : 0 < B) (ha : a < n) :
    a / B < numBlocks B n := by
  rw [Nat.div_lt_iff_lt_mul hB]
  exact Nat.lt_of_lt_of_le ha (le_numBlocks_mul hB)

theorem div_mul_le_self' {B a : Nat} (hB : 0 < B) : a / B * B ≤ a := by
  have h := Nat.div_add_mod a B
  have h2 : a % B < B := Nat.mod_lt _ hB
  rw [Nat.mul_comm] at h
  omega

theorem lt_div_mul_add {B a : Nat} (hB : 0 < B) : a < a / B * B + B := by
  have h := Nat.div_add_mod a B
  have h2 : a % B < B := Nat.mod_lt _ hB
  rw [Nat.mul_comm] at h
  omega

theorem block_eq_div {B a i len : Nat} (hlen : len ≤ B)
    (h1 : i * B ≤ a) (h2 : a < i * B + len) : a / B = i := by
  refine Nat.div_eq_of_lt_le h1 ?_
  have hs : (i + 1) * B = i * B + B := by ring
  omega

/-
Pointwise characterizations of slices and of `writeMem`.
-/

theorem getD_of_getElem? {α : Type} {l : List α} {j : Nat} {x d : α}
    (hj : l[j]? = some x) : l.getD j d = x := by
  rw [List.getD_eq_getElem?_getD, hj]
  rfl

theorem byteSlice_getElem? (m : List Byte) (s e j : Nat) :
    (byteSlice m s e)[j]? = if j < e - s then m[s + j]? else none := by
  unfold byteSlice
  rw [List.getElem?_take]
  split
  · rw [List.getElem?_drop]
  · rfl

theorem byteSlice_length (m : List Byte) (s e : Nat) :
    (byteSlice m s e).length = min (e - s) (m.length - s) := by
  unfold byteSlice
  rw [List.length_take, List.length_drop]

theorem blockOf_getElem? (B : Nat) (m : List Byte) (i j : Nat) :
    (blockOf B m i)[j]? =
      if j < min (i * B + B) m.length - i * B then m[i * B + j]? else none := by
  unfold blockOf blockSliceN
  rw [byteSlice_getElem?]

theorem blockOf_length (B : Nat) (m : List Byte) (i : Nat) :
    (blockOf B m i).length = min (i * B + B) m.length - i * B := by
  unfold blockOf blockSliceN
  rw [byteSlice_length]
  omega

theorem blockOf_length_le (B : Nat) (m : List Byte) (i : Nat) :
    (blockOf B m i).length ≤ B := by
  rw [blockOf_length]
  omega

theorem writeMem_length {m data : List Byte} {off : Nat}
    (hfit : off + data.length ≤ m.length) : (writeMem m off data).length = m.length := by
  unfold writeMem
  rw [List.length_append, List.length_append, List.length_take, List.length_drop]
  omega

theorem writeMem_getElem?_inside {m data : List Byte} {off a : Nat}
    (hfit : off + data.length ≤ m.length) (h1 : off ≤ a) (h2 : a < off + data.length) :
    (writeMem m off data)[a]? = data[a - off]? := by
  unfold writeMem
  have hto : (m.take off).length = off := by
    rw [List.length_take]; omega
  have hab : (m.take off ++ data).length = off + data.length := by
    rw [List.length_append, hto]
  rw [List.getElem?_append, hab, if_pos h2,
      List.getElem?_append_right (by rw [hto]; exact h1), hto]

theorem writeMem_getElem?_outside {m data : List Byte} {off a : Nat}
    (hfit : off + data.length ≤ m.length) (h : a < off ∨ off + data.length ≤ a) :
    (writeMem m off data)[a]? = m[a]? := by
  unfold writeMem
  have hto : (m.take off).length = off := by
    rw [List.length_take]; omega
  have hab : (m.take off ++ data).length = off + data.length := by
    rw [List.length_append, hto]
  rcases h with h | h
  · rw [List.getElem?_append, hab, if_pos (by omega),
        List.getElem?_append, hto, if_pos h, List.getElem?_take, if_pos h]
  · rw [List.getElem?_append, hab, if_neg (by omega), List.getElem?_drop]
    congr 1
    omega

/-
Pointwise characterization of applying a checkpoint's dirty blocks.
-/

theorem applyBlocks_nil (B : Nat) (m : List Byte) : applyBlocks B [] m = m := rfl

theorem applyBlocks_cons (B : Nat) (p : Nat × List Byte)
    (rest : List (Nat × List Byte)) (m : List Byte) :
    applyBlocks B (p :: rest) m = applyBlocks B rest (writeMem m (p.1 * B) p.2) := rfl

theorem applyBlocks_length {B : Nat} {blocks : List (Nat × List Byte)} {m : List Byte}
    (hin : ∀ p ∈ blocks, p.1 * B + p.2.length ≤ m.length) :
    (applyBlocks B blocks m).length = m.length := by
  induction blocks generalizing m with
  | nil => rfl
  | cons p rest ih =>
    have hw := writeMem_length (hin p (List.mem_cons_self _ _))
    have hrest : ∀ q ∈ rest, q.1 * B + q.2.length ≤ (writeMem m (p.1 * B) p.2).length := by
      intro q hq
      rw [hw]
      exact hin q (List.mem_cons_of_mem _ hq)
    rw [applyBlocks_cons, ih hrest, hw]

theorem applyBlocks_getElem?_nc {B : Nat} {blocks : List (Nat × List Byte)}
    {m : List Byte} {a : Nat}
    (hin : ∀ p ∈ blocks, p.1 * B + p.2.length ≤ m.length)
    (hnc : ∀ p ∈ blocks, ¬ (p.1 * B ≤ a ∧ a < p.1 * B + p.2.length)) :
    (applyBlocks B blocks m)[a]? = m[a]? := by
  induction blocks generalizing m with
  | nil => rfl
  | cons p rest ih =>
    have hw := writeMem_length (hin p (List.mem_cons_self _ _))
    have hout : (writeMem m (p.1 * B) p.2)[a]? = m[a]? := by
      apply writeMem_getElem?_outside (hin p (List.mem_cons_self _ _))
      have := hnc p (List.mem_cons_self _ _)
      omega
    have h1 : ∀ q ∈ rest, q.1 * B + q.2.length ≤ (writeMem m (p.1 * B) p.2).length := by
      intro q hq
      rw [hw]
      exact hin q (List.mem_cons_of_mem _ hq)
    have h2 : ∀ q ∈ rest, ¬ (q.1 * B ≤ a ∧ a < q.1 * B + q.2.length) :=
      fun q hq => hnc q (List.mem_cons_of_mem _ hq)
    rw [applyBlocks_cons, ih h1 h2, hout]

theorem applyBlocks_getElem?_cov {B : Nat} {blocks : List (Nat × List Byte)}
    {m : List Byte} {i a : Nat} {bd : List Byte}
    (hin : ∀ p ∈ blocks, p.1 * B + p.2.length ≤ m.length)
    (hbd : ∀ p ∈ blocks, p.2.length ≤ B)
    (hnd : (blocks.map Prod.fst).Nodup)
    (hmem : (i, bd) ∈ blocks) (h1 : i * B ≤ a) (h2 : a < i * B + bd.length) :
    (applyBlocks B blocks m)[a]? = bd[a - i * B]? := by
  induction blocks generalizing m with
  | nil => exact absurd hmem (List.not_mem_nil _)
  | cons p rest ih =>
    rw [List.map_cons, List.nodup_cons] at hnd
    have hw := writeMem_length (hin p (List.mem_cons_self _ _))
    have hinr : ∀ q ∈ rest, q.1 * B + q.2.length ≤ (writeMem m (p.1 * B) p.2).length := by
      intro q hq
      rw [hw]
      exact hin q (List.mem_cons_of_mem _ hq)
    have hbdr : ∀ q ∈ rest, q.2.length ≤ B :=
      fun q hq => hbd q (List.mem_cons_of_mem _ hq)
    rcases List.mem_cons.mp hmem with heq | hmemr
    · subst heq
      have hcov : (writeMem m (i * B) bd)[a]? = bd[a - i * B]? :=
        writeMem_getElem?_inside (hin (i, bd) (List.mem_cons_self _ _)) h1 h2
      have hncr : ∀ q ∈ rest, ¬ (q.1 * B ≤ a ∧ a < q.1 * B + q.2.length) := by
        intro q hq hc
        have hqa : a / B = q.1 := block_eq_div (hbdr q hq) hc.1 hc.2
        have hia : a / B = i :=
          block_eq_div (hbd (i, bd) (List.mem_cons_self _ _)) h1 h2
        exact hnd.1 (by
          have : q.1 ∈ rest.map Prod.fst := List.mem_map_of_mem Prod.fst hq
          rw [← hqa, hia] at this
          exact this)
      rw [applyBlocks_cons, applyBlocks_getElem?_nc hinr hncr, hcov]
    · rw [applyBlocks_cons]
      exact ih hinr hbdr hnd.2 hmemr

/-
Characterization of the dirty-detection loop of `capture_delta`.
-/

theorem deltaStep_pair (h : List Byte → List Byte) (B : Nat) (mem : List Byte)
    (hs : List (List Byte)) (d : List (Nat × List Byte)) (i : Nat) :
    deltaStep h B mem (hs, d) i =
      if h (blockOf B mem i) = hs.getD i [] then (hs, d)
      else (hs.set i (h (blockOf B mem i)), d ++ [(i, blockOf B mem i)]) := rfl

theorem dirtyList_succ (h : List Byte → List Byte) (B : Nat) (mem : List Byte)
    (hs : List (List Byte)) (n : Nat) :
    dirtyList h B mem hs (n + 1) =
      dirtyList h B mem hs n ++
        (if h (blockOf B mem n) = hs.getD n [] then []
         else [(n, blockOf B mem n)]) := by
  unfold dirtyList
  rw [List.range_succ, List.filter_append, List.map_append]
  congr 1
  by_cases hc : h (blockOf B mem n) = hs.getD n []
  · have hd : decide (h (blockOf B mem n) ≠ hs.getD n []) = false :=
      decide_eq_false (not_not_intro hc)
    rw [if_pos hc, List.filter_cons, hd]
    simp
  · have hd : decide (h (blockOf B mem n) ≠ hs.getD n []) = true :=
      decide_eq_true hc
    rw [if_neg hc, List.filter_cons, hd]
    simp

theorem deltaRun_spec (h : List Byte → List Byte) (B : Nat) (mem : List Byte)
    (hs0 : List (List Byte)) (n : Nat) (hn : n ≤ hs0.length) :
    ∃ hs1, deltaRun h B mem hs0 n = (hs1, dirtyList h B mem hs0 n) ∧
      hs1.length = hs0.length ∧
      ∀ j : Nat, hs1[j]? = if j < n then some (h (blockOf B mem j)) else hs0[j]? := by
  induction n with
  | zero => exact ⟨hs0, rfl, rfl, fun j => by rw [if_neg (by omega)]⟩
  | succ n ih =>
    obtain ⟨hs1, heq, hlen, hchar⟩ := ih (by omega)
    have hstep : deltaRun h B mem hs0 (n + 1) = deltaStep h B mem (hs1, dirtyList h B mem hs0 n) n := by
      unfold deltaRun
      rw [List.range_succ, List.foldl_append]
      unfold deltaRun at heq
      rw [heq]
      rfl
    have hsn : hs1.getD n [] = hs0.getD n [] := by
      have hc := hchar n
      rw [if_neg (by omega)] at hc
      rw [List.getD_eq_getElem?_getD, hc, ← List.getD_eq_getElem?_getD]
    rw [hstep, deltaStep_pair, hsn]
    by_cases hc : h (blockOf B mem n) = hs0.getD n []
    · rw [if_pos hc]
      refine ⟨hs1, ?_, hlen, ?_⟩
      · rw [dirtyList_succ, if_pos hc, List.append_nil]
      · intro j
        rw [hchar j]
        by_cases hj : j < n
        · rw [if_pos hj, if_pos (by omega)]
        · rw [if_neg hj]
          by_cases hj2 : j < n + 1
          · have hjn : j = n := by omega
            subst hjn
            rw [if_pos (by omega)]
            have hb : j < hs0.length := by omega
            rw [List.getElem?_eq_getElem hb, hc, List.getD_eq_getElem?_getD,
                List.getElem?_eq_getElem hb]
            rfl
          · rw [if_neg hj2]
    · rw [if_neg hc]
      refine ⟨hs1.set n (h (blockOf B mem n)), ?_, ?_, ?_⟩
      · rw [dirtyList_succ, if_neg hc]
      · rw [List.length_set, hlen]
      · intro j
        rw [List.getElem?_set]
        by_cases hj : n = j
        · subst hj
          rw [if_pos rfl, if_pos (by omega), if_pos (by omega)]
        · rw [if_neg hj, hchar j]
          by_cases hj2 : j < n
          · rw [if_pos hj2, if_pos (by omega)]
          · rw [if_neg hj2, if_neg (by omega)]

theorem dirtyList_mem {h : List Byte → List Byte} {B : Nat} {mem : List Byte}
    {hs : List (List Byte)} {n : Nat} {p : Nat × List Byte} :
    p ∈ dirtyList h B mem hs n ↔
      p.1 < n ∧ h (blockOf B mem p.1) ≠ hs.getD p.1 [] ∧ p.2 = blockOf B mem p.1 := by
  unfold dirtyList
  constructor
  · intro hp
    obtain ⟨i, hi, hpe⟩ := List.mem_map.mp hp
    obtain ⟨hir, hpred⟩ := List.mem_filter.mp hi
    rw [List.mem_range] at hir
    subst hpe
    exact ⟨hir, of_decide_eq_true hpred, rfl⟩
  · intro ⟨h1, h2, h3⟩
    refine List.mem_map.mpr ⟨p.1, List.mem_filter.mpr ⟨List.mem_range.mpr h1, decide_eq_true h2⟩, ?_⟩
    rw [← h3]

theorem dirtyList_map_fst (h : List Byte → List Byte) (B : Nat) (mem : List Byte)
    (hs : List (List Byte)) (n : Nat) :
    (dirtyList h B mem hs n).map Prod.fst =
      (List.range n).filter (fun i => decide (h (blockOf B mem i) ≠ hs.getD i [])) := by
  unfold dirtyList
  rw [List.map_map]
  have hc : (Prod.fst ∘ fun i : Nat => (i, blockOf B mem i)) = id := rfl
  rw [hc, List.map_id]

theorem dirtyList_nodup_fst (h : List Byte → List Byte) (B : Nat) (mem : List Byte)
    (hs : List (List Byte)) (n : Nat) :
    ((dirtyList h B mem hs n).map Prod.fst).Nodup := by
  rw [dirtyList_map_fst]
  exact List.Nodup.filter _ (List.nodup_range n)

theorem dirtyList_length (h : List Byte → List Byte) (B : Nat) (mem : List Byte)
    (hs : List (List Byte)) (n : Nat) :
    (dirtyList h B mem hs n).length =
      ((List.range n).filter (fun i => decide (h (blockOf B mem i) ≠ hs.getD i []))).length := by
  unfold dirtyList
  rw [List.length_map]

theorem dirtyList_congr (h : List Byte → List Byte) (B : Nat) (mem : List Byte)
    {hs hs' : List (List Byte)} {n : Nat}
    (hpref : ∀ j, j < n → hs.getD j [] = hs'.getD j []) :
    dirtyList h B mem hs n = dirtyList h B mem hs' n := by
  unfold dirtyList
  congr 1
  apply List.filter_congr
  intro i hi
  rw [List.mem_range] at hi
  rw [hpref i hi]

theorem dirtyList_expand (h : List Byte → List Byte) (B : Nat) (mem : List Byte)
    {bh tail : List (List Byte)} {T0 : Nat} (hlen : bh.length = T0) :
    ∀ n, T0 ≤ n →
    (∀ j, T0 ≤ j → j < n → (bh ++ tail).getD j [] = h (blockOf B mem j)) →
    dirtyList h B mem (bh ++ tail) n = dirtyList h B mem bh T0 := by
  intro n
  induction n with
  | zero =>
    intro hT0 _
    have hz : T0 = 0 := by omega
    subst hz
    rfl
  | succ n ih =>
    intro hT0 htail
    rcases Nat.lt_or_ge n T0 with hlt | hge
    · have hz : T0 = n + 1 := by omega
      subst hz
      apply dirtyList_congr
      intro j hj
      rw [List.getD_eq_getElem?_getD, List.getD_eq_getElem?_getD,
          List.getElem?_append, if_pos (by omega)]
    · rw [dirtyList_succ, htail n (by omega) (by omega)]
      rw [if_pos rfl, List.append_nil]
      exact ih hge (fun j h1 h2 => htail j h1 (by omega))

theorem expand_tail_slice {B : Nat} {bm mem : List Byte} {i : Nat}
    (hle : bm.length ≤ i * B) :
    blockSliceN B (bm ++ mem.drop bm.length) mem.length i = blockOf B mem i := by
  unfold blockOf
  apply List.ext_getElem?
  intro j
  unfold blockSliceN
  rw [byteSlice_getElem?, byteSlice_getElem?]
  split
  · rw [List.getElem?_append_right (by omega), List.getElem?_drop]
    congr 1
    omega
  · rfl

theorem expand_spec (h : List Byte → List Byte) {B n : Nat} (hB : 0 < B)
    {s : WASMSnapshot} {bm : List Byte} (mem : List Byte)
    (hbs : s.block_size = B) (hbase : s.base_memory = some bm)
    (hT : s.total_blocks = numBlocks B bm.length) :
    s.expand_base_memory h mem n =
      { s with
          base_memory := some (bm ++ mem.drop bm.length)
          block_hashes := s.block_hashes ++
            (List.range (n - s.total_blocks)).map
              (fun j => h (blockOf B mem (s.total_blocks + j)))
          total_blocks := n } := by
  unfold WASMSnapshot.expand_base_memory
  rw [hbase, hbs]
  simp only [Option.getD_some]
  have hmap : ∀ j ∈ List.range (n - s.total_blocks),
      h (blockSliceN B (bm ++ mem.drop bm.length) mem.length (s.total_blocks + j)) =
        h (blockOf B mem (s.total_blocks + j)) := by
    intro j _
    rw [expand_tail_slice]
    have h1 : bm.length ≤ s.total_blocks * B := by
      rw [hT]
      exact le_numBlocks_mul hB
    have h2 : s.total_blocks * B ≤ (s.total_blocks + j) * B :=
      Nat.mul_le_mul_right _ (by omega)
    omega
  rw [List.map_congr_left hmap]

theorem capture_delta_spec (h : List Byte → List Byte) {B : Nat} (hB : 0 < B)
    {s : WASMSnapshot} {bm : List Byte} (mem : List Byte) (name : Option String)
    (hbs : s.block_size = B) (hbase : s.base_memory = some bm)
    (hT : s.total_blocks = numBlocks B bm.length)
    (hlen : s.block_hashes.length = s.total_blocks) :
    ∃ hs2 : List (List Byte),
      s.capture_delta h mem name = .ok
        ({ block_size := B
           base_memory := some (if s.total_blocks < numBlocks B mem.length
                                then bm ++ mem.drop bm.length else bm)
           block_hashes := hs2
           checkpoints := s.checkpoints ++
             [deltaCheckpoint h B mem s.block_hashes
               (min (numBlocks B mem.length) s.total_blocks) name]
           total_blocks := max s.total_blocks (numBlocks B mem.length) },
         (deltaCheckpoint h B mem s.block_hashes
            (min (numBlocks B mem.length) s.total_blocks) name).dirty_count,
         (deltaCheckpoint h B mem s.block_hashes
            (min (numBlocks B mem.length) s.total_blocks) name).memory_usage) ∧
      hs2.length = max s.total_blocks (numBlocks B mem.length) ∧
      ∀ j : Nat, hs2[j]? = if j < numBlocks B mem.length
        then some (h (blockOf B mem j)) else s.block_hashes[j]? := by
  obtain ⟨bs, bmem, bh, cps, tb⟩ := s
  simp only [] at hbs hbase hT hlen ⊢
  subst hbs
  subst hbase
  subst hT
  by_cases hgrow : numBlocks bs bm.length < numBlocks bs mem.length
  · -- memory grew by at least one block: the base is expanded first
    have hexp := expand_spec (s := ⟨bs, some bm, bh, cps, numBlocks bs bm.length⟩)
      (n := numBlocks bs mem.length) h hB mem rfl rfl rfl
    have hlen1 : (bh ++ (List.range (numBlocks bs mem.length - numBlocks bs bm.length)).map
        (fun j => h (blockOf bs mem (numBlocks bs bm.length + j)))).length
          = numBlocks bs mem.length := by
      rw [List.length_append, List.length_map, List.length_range]
      omega
    have htail : ∀ j, numBlocks bs bm.length ≤ j → j < numBlocks bs mem.length →
        (bh ++ (List.range (numBlocks bs mem.length - numBlocks bs bm.length)).map
          (fun j => h (blockOf bs mem (numBlocks bs bm.length + j)))).getD j []
          = h (blockOf bs mem j) := by
      intro j h1 h2
      apply getD_of_getElem?
      rw [List.getElem?_append_right (by omega), hlen]
      rw [List.getElem?_map, List.getElem?_range (by omega)]
      have harith : numBlocks bs bm.length + (j - numBlocks bs bm.length) = j := by omega
      rw [Option.map_some', harith]
    obtain ⟨hs2, heq, hl2, hchar⟩ := deltaRun_spec h bs mem
      (bh ++ (List.range (numBlocks bs mem.length - numBlocks bs bm.length)).map
        (fun j => h (blockOf bs mem (numBlocks bs bm.length + j))))
      (numBlocks bs mem.length) (by omega)
    have hdirty : dirtyList h bs mem
        (bh ++ (List.range (numBlocks bs mem.length - numBlocks bs bm.length)).map
          (fun j => h (blockOf bs mem (numBlocks bs bm.length + j))))
        (numBlocks bs mem.length) = dirtyList h bs mem bh (numBlocks bs bm.length) :=
      dirtyList_expand h bs mem hlen _ (by omega) htail
    refine ⟨hs2, ?_, ?_, ?_⟩
    · unfold WASMSnapshot.capture_delta
      simp only []
      rw [if_pos hgrow, hexp]
      simp only []
      unfold deltaRun at heq
      rw [heq]
      simp only []
      rw [hdirty, Nat.min_eq_right (Nat.le_of_lt hgrow),
          Nat.max_eq_right (Nat.le_of_lt hgrow), if_pos hgrow]
      rfl
    · rw [hl2, hlen1, Nat.max_eq_right (Nat.le_of_lt hgrow)]
    · intro j
      rw [hchar j]
      by_cases hj : j < numBlocks bs mem.length
      · rw [if_pos hj, if_pos hj]
      · rw [if_neg hj, if_neg hj]
        rw [List.getElem?_eq_none (by omega), List.getElem?_eq_none (by omega)]
  · -- no growth: the loop runs over the existing hash vector
    obtain ⟨hs2, heq, hl2, hchar⟩ := deltaRun_spec h bs mem bh
      (numBlocks bs mem.length) (by omega)
    refine ⟨hs2, ?_, ?_, ?_⟩
    · unfold WASMSnapshot.capture_delta
      simp only []
      rw [if_neg hgrow]
      unfold deltaRun at heq
      rw [heq]
      simp only []
      rw [Nat.min_eq_left (by omega), Nat.max_eq_left (by omega), if_neg hgrow]
      rfl
    · rw [hl2, hlen, Nat.max_eq_left (by omega)]
    · intro j
      rw [hchar j]

theorem computeBlockHashes_length (h : List Byte → List Byte) (B : Nat) (data : List Byte) :
    (computeBlockHashes h B data).length = numBlocks B data.length := by
  unfold computeBlockHashes
  rw [List.length_map, List.length_range]

theorem computeBlockHashes_getElem? (h : List Byte → List Byte) (B : Nat)
    (data : List Byte) (j : Nat) :
    (computeBlockHashes h B data)[j]? =
      if j < numBlocks B data.length then some (h (blockOf B data j)) else none := by
  unfold computeBlockHashes
  rw [List.getElem?_map]
  by_cases hj : j < numBlocks B data.length
  · rw [List.getElem?_range hj, if_pos hj, Option.map_some']
  · rw [List.getElem?_eq_none (by rw [List.length_range]; omega), if_neg hj]
    rfl

theorem restore_spec (s : WASMSnapshot) (mem bm : List Byte) (idx : Int)
    (hbase : s.base_memory = some bm) (hne : s.checkpoints ≠ []) :
    s.restore mem idx =
      if idx < -1 - s.checkpoints.length ∨ (s.checkpoints.length : Int) ≤ idx
      then .error .OutOfRange
      else .ok (s, applyCheckpoints s.block_size
          (s.checkpoints.take
            ((if idx < 0 then idx + s.checkpoints.length else idx) + 1).toNat)
          (writeMem mem 0 bm), bm.length) := by
  have hlen1 : 1 ≤ s.checkpoints.length := by
    cases hcs : s.checkpoints with
    | nil => exact absurd hcs hne
    | cons a l => rw [List.length_cons]; omega
  unfold WASMSnapshot.restore
  rw [hbase]
  simp only []
  have hemp : ¬ (s.checkpoints.isEmpty = true) := by
    cases hcs : s.checkpoints with
    | nil => exact absurd hcs hne
    | cons a l => simp
  rw [if_neg hemp]
  by_cases hneg : idx < 0
  · rw [if_pos hneg]
    by_cases hout : idx < -1 - s.checkpoints.length ∨ (s.checkpoints.length : Int) ≤ idx
    · rw [if_pos hout, if_pos (by omega)]
    · rw [if_neg hout, if_neg (by omega)]
  · rw [if_neg hneg]
    by_cases hout : idx < -1 - s.checkpoints.length ∨ (s.checkpoints.length : Int) ≤ idx
    · rw [if_pos hout, if_pos (by omega)]
    · rw [if_neg hout, if_neg (by omega)]

theorem restore_nat_spec (s : WASMSnapshot) {bm : List Byte} (mem : List Byte) (k : Nat)
    (hbase : s.base_memory = some bm) (hk : k < s.checkpoints.length) :
    s.restore mem (k : Int) =
      .ok (s, applyCheckpoints s.block_size (s.checkpoints.take (k + 1))
              (writeMem mem 0 bm), bm.length) := by
  have hne : s.checkpoints ≠ [] := by
    intro hcs
    rw [hcs] at hk
    exact absurd hk (by simp)
  rw [restore_spec s mem bm _ hbase hne, if_neg (by omega), if_neg (by omega)]
  have ht : ((k : Int) + 1).toNat = k + 1 := by omega
  rw [ht]

theorem applyCheckpoints_append (B : Nat) (cps : List Checkpoint) (cp : Checkpoint)
    (m : List Byte) :
    applyCheckpoints B (cps ++ [cp]) m =
      applyBlocks B cp.dirty_blocks (applyCheckpoints B cps m) := by
  unfold applyCheckpoints
  rw [List.foldl_append]
  rfl

theorem writeMem_zero_full {m data : List Byte} (hl : data.length = m.length) :
    writeMem m 0 data = data := by
  unfold writeMem
  rw [List.take_zero, Nat.zero_add, hl, List.drop_length, List.nil_append,
      List.append_nil]

/-- Core step of the round-trip argument: with a collision-free digest,
applying the dirty blocks that `capture_delta` extracts (comparing the
live memory `mem` against a hash vector that describes `prev`) to the
image `prev` reconstructs `mem` exactly. -/
theorem applyBlocks_dirty (h : List Byte → List Byte) {B : Nat} (hB : 0 < B)
    (hinj : Function.Injective h)
    {mem prev : List Byte} {hs : List (List Byte)}
    (hlenm : prev.length = mem.length)
    (hhash : ∀ i, i < numBlocks B mem.length → hs.getD i [] = h (blockOf B prev i)) :
    applyBlocks B (dirtyList h B mem hs (numBlocks B mem.length)) prev = mem := by
  have hin : ∀ p ∈ dirtyList h B mem hs (numBlocks B mem.length),
      p.1 * B + p.2.length ≤ prev.length := by
    intro p hp
    obtain ⟨h1, _, h3⟩ := dirtyList_mem.mp hp
    rw [h3, blockOf_length]
    have hstart : p.1 * B < mem.length := by
      have hiff := numBlocks_le_iff (B := B) (n := mem.length) (m := p.1) hB
      by_contra hc
      exact absurd (hiff.mpr (by omega)) (by omega)
    omega
  have hbd : ∀ p ∈ dirtyList h B mem hs (numBlocks B mem.length), p.2.length ≤ B := by
    intro p hp
    obtain ⟨_, _, h3⟩ := dirtyList_mem.mp hp
    rw [h3]
    exact blockOf_length_le B mem p.1
  apply List.ext_getElem?
  intro a
  by_cases ha : a < mem.length
  · have hi1 : a / B * B ≤ a := div_mul_le_self' hB
    have hi2 : a < a / B * B + B := lt_div_mul_add hB
    have hiT : a / B < numBlocks B mem.length := div_lt_numBlocks hB ha
    have hblen : (blockOf B mem (a / B)).length = min (a / B * B + B) mem.length - a / B * B :=
      blockOf_length B mem (a / B)
    by_cases hpi : h (blockOf B mem (a / B)) = hs.getD (a / B) []
    · -- clean block: untouched, and injectivity forces the bytes to agree
      have hnc : ∀ p ∈ dirtyList h B mem hs (numBlocks B mem.length),
          ¬ (p.1 * B ≤ a ∧ a < p.1 * B + p.2.length) := by
        intro p hp hc
        obtain ⟨_, h2, h3⟩ := dirtyList_mem.mp hp
        have : a / B = p.1 := block_eq_div (hbd p hp) hc.1 hc.2
        rw [← this] at h2
        exact h2 hpi
      rw [applyBlocks_getElem?_nc hin hnc]
      have heqb : blockOf B mem (a / B) = blockOf B prev (a / B) :=
        hinj (by rw [← hhash (a / B) hiT]; exact hpi)
      have h1 : (blockOf B mem (a / B))[a - a / B * B]? = mem[a]? := by
        rw [blockOf_getElem?, if_pos (by omega)]
        congr 1
        omega
      have h2 : (blockOf B prev (a / B))[a - a / B * B]? = prev[a]? := by
        rw [blockOf_getElem?, if_pos (by rw [hlenm]; omega)]
        congr 1
        omega
      rw [← h2, ← heqb, h1]
    · -- dirty block: the checkpoint copy of the live block wins
      have hmm : ((a / B), blockOf B mem (a / B)) ∈
          dirtyList h B mem hs (numBlocks B mem.length) :=
        dirtyList_mem.mpr ⟨hiT, hpi, rfl⟩
      have hcov := applyBlocks_getElem?_cov hin hbd
        (dirtyList_nodup_fst h B mem hs _) hmm hi1 (by rw [hblen]; omega)
      rw [hcov, blockOf_getElem?, if_pos (by omega)]
      congr 1
      omega
  · rw [List.getElem?_eq_none (by
        rw [applyBlocks_length hin, hlenm]
        omega),
      List.getElem?_eq_none (by omega)]

theorem getLastD_eq_getD {α : Type} (l : List α) (hne : l ≠ []) (d d' : α) :
    l.getLastD d = l.getD (l.length - 1) d' := by
  have hpos : 0 < l.length := by
    cases l with
    | nil => exact absurd rfl hne
    | cons a as => rw [List.length_cons]; omega
  rw [List.getLastD_eq_getLast?, List.getLast?_eq_getElem?, List.getD_eq_getElem?_getD,
      List.getElem?_eq_getElem (by omega)]
  rfl

theorem getLastD_length {caps : List (List Byte)} {m0 : List Byte}
    (hcaps : ∀ c ∈ caps, c.length = m0.length) :
    (caps.getLastD m0).length = m0.length := by
  cases hc : caps with
  | nil => rfl
  | cons c cs =>
    rw [← hc, getLastD_eq_getD caps (by rw [hc]; exact List.cons_ne_nil c cs) m0 m0]
    apply hcaps
    rw [List.getD_eq_getElem?_getD, List.getElem?_eq_getElem (by rw [hc, List.length_cons]; omega)]
    exact List.getElem_mem _

theorem runInv_init (h : List Byte → List Byte) (B : Nat) (m0 : List Byte) :
    RunInv h B m0 (((WASMSnapshot.init B).capture_base h m0).1, m0, []) := by
  refine ⟨rfl, rfl, rfl, computeBlockHashes_length h B m0, rfl, rfl, ?_, ?_, ?_, ?_⟩
  · intro cp hcp
    exact absurd hcp (List.not_mem_nil _)
  · intro c hc
    exact absurd hc (List.not_mem_nil _)
  · intro i hi
    show (computeBlockHashes h B m0).getD i [] = h (blockOf B m0 i)
    apply getD_of_getElem?
    rw [computeBlockHashes_getElem?, if_pos hi]
  · intro k hk
    exact absurd hk (by simp)

theorem runInv_step (h : List Byte → List Byte) {B : Nat} (hB : 0 < B)
    (hinj : Function.Injective h) {m0 : List Byte}
    {st : WASMSnapshot × List Byte × List (List Byte)}
    (hinv : RunInv h B m0 st) : ∀ op : SnapOp, RunInv h B m0 (stepOp h st op) := by
  obtain ⟨s, mem, caps⟩ := st
  obtain ⟨hbs, hbase, hT, hhl, hmem, hclen, hsize, hcaps, hhash, hreplay⟩ := hinv
  simp only [] at hbs hbase hT hhl hmem hclen hsize hcaps hhash hreplay
  intro op
  cases op with
  | write a v =>
    refine ⟨hbs, hbase, hT, hhl, ?_, hclen, hsize, hcaps, hhash, hreplay⟩
    show (mem.set a v).length = m0.length
    rw [List.length_set]
    exact hmem
  | delta name =>
    obtain ⟨hs2, heq, hl2, hchar⟩ := capture_delta_spec h hB mem name hbs hbase hT hhl
    have hn : numBlocks B mem.length = numBlocks B m0.length := by rw [hmem]
    rw [hn, hT, if_neg (lt_irrefl _), Nat.min_self, Nat.max_self] at heq
    rw [hn, hT, Nat.max_self] at hl2
    have hstep : stepOp h (s, mem, caps) (.delta name) =
        ({ block_size := B
           base_memory := some m0
           block_hashes := hs2
           checkpoints := s.checkpoints ++
             [deltaCheckpoint h B mem s.block_hashes (numBlocks B m0.length) name]
           total_blocks := numBlocks B m0.length }, mem, caps ++ [mem]) := by
      unfold stepOp
      simp only []
      rw [heq]
    rw [hstep]
    have hprevlen : (caps.getLastD m0).length = m0.length := getLastD_length hcaps
    have hprev : applyCheckpoints B s.checkpoints m0 = caps.getLastD m0 := by
      by_cases hc : caps = []
      · have hcz : s.checkpoints = [] := by
          rw [← List.length_eq_zero, ← hclen, hc]
          rfl
        rw [hcz, hc]
        rfl
      · have hlenpos : 0 < caps.length := List.length_pos.mpr hc
        have hr := hreplay (caps.length - 1) (by omega)
        rw [Nat.sub_add_cancel (by omega),
            List.take_of_length_le (show s.checkpoints.length ≤ caps.length by omega)] at hr
        rw [hr, getLastD_eq_getD caps hc m0 []]
    have hcore : applyBlocks B (dirtyList h B mem s.block_hashes (numBlocks B m0.length))
        (caps.getLastD m0) = mem := by
      rw [← hn]
      apply applyBlocks_dirty h hB hinj
      · rw [hprevlen, hmem]
      · intro i hi
        rw [hn] at hi
        exact hhash i hi
    refine ⟨rfl, rfl, rfl, hl2, hmem, ?_, ?_, ?_, ?_, ?_⟩
    · show (caps ++ [mem]).length = (s.checkpoints ++
        [deltaCheckpoint h B mem s.block_hashes (numBlocks B m0.length) name]).length
      rw [List.length_append, List.length_append, hclen]
      rfl
    · intro cp hcp
      rcases List.mem_append.mp hcp with hold | hnew
      · exact hsize cp hold
      · rw [List.mem_singleton.mp hnew]
        exact hmem
    · intro c hc
      rcases List.mem_append.mp hc with hold | hnew
      · exact hcaps c hold
      · rw [List.mem_singleton.mp hnew]
        exact hmem
    · intro i hi
      show hs2.getD i [] = h (blockOf B ((caps ++ [mem]).getLastD m0) i)
      rw [List.getLastD_concat]
      apply getD_of_getElem?
      rw [hchar i, hn, if_pos hi]
    · intro k hk
      show applyCheckpoints B ((s.checkpoints ++
        [deltaCheckpoint h B mem s.block_hashes (numBlocks B m0.length) name]).take (k + 1)) m0
          = (caps ++ [mem]).getD k []
      simp only [List.length_append, List.length_cons, List.length_nil] at hk
      by_cases hko : k < caps.length
      · rw [List.take_append_of_le_length (by omega), hreplay k hko,
            List.getD_eq_getElem?_getD, List.getD_eq_getElem?_getD, List.getElem?_append,
            if_pos (by omega)]
      · have hkc : k = caps.length := by omega
        subst hkc
        rw [List.take_of_length_le
              (by rw [List.length_append, List.length_cons, List.length_nil]; omega),
            applyCheckpoints_append]
        show applyBlocks B (dirtyList h B mem s.block_hashes (numBlocks B m0.length))
          (applyCheckpoints B s.checkpoints m0) = (caps ++ [mem]).getD caps.length []
        rw [hprev, hcore, List.getD_eq_getElem?_getD,
            List.getElem?_append_right (Nat.le_refl _), Nat.sub_self]
        rfl

theorem runInv_runOps (h : List Byte → List Byte) {B : Nat} (hB : 0 < B)
    (hinj : Function.Injective h) (m0 : List Byte) (ops : List SnapOp) :
    RunInv h B m0 (runOps h B m0 ops) := by
  unfold runOps
  have hgen : ∀ st, RunInv h B m0 st → RunInv h B m0 (ops.foldl (stepOp h) st) := by
    induction ops with
    | nil => intro st hst; exact hst
    | cons op rest ih =>
      intro st hst
      rw [List.foldl_cons]
      exact ih _ (runInv_step h hB hinj hst op)
  exact hgen _ (runInv_init h B m0)

/-- C1: Snapshot round-trip.  For every trace consisting of one
`capture_base` followed by any interleaving of guest-memory writes and
`capture_delta` calls, `restore(mem, k)` for a valid checkpoint index
`k` succeeds without touching the engine fields and rewrites the guest
memory so that every byte below the `memory_size` recorded at
checkpoint `k` equals, bit-exact, the byte the memory held at the
moment checkpoint `k` was captured (the ghost trace of the run).  The
digest is assumed collision-free, as the engine documents. -/
theorem snapshot_roundtrip_restore (h : List Byte → List Byte)
    (hinj : Function.Injective h) {B : Nat} (hB : 0 < B) (m0 : List Byte)
    (ops : List SnapOp) (k : Nat)
    (hk : k < (runOps h B m0 ops).1.checkpoints.length) :
    ∃ m' : List Byte,
      (runOps h B m0 ops).1.restore (runOps h B m0 ops).2.1 (k : Int) =
        .ok ((runOps h B m0 ops).1, m', m0.length) ∧
      m' = (runOps h B m0 ops).2.2.getD k [] ∧
      ∀ addr : Nat,
        addr < ((runOps h B m0 ops).1.checkpoints.getD k default).memory_size →
        m'.getD addr 0 = ((runOps h B m0 ops).2.2.getD k []).getD addr 0 := by
  obtain ⟨hbs, hbase, hT, hhl, hmem, hclen, hsize, hcaps, hhash, hreplay⟩ :=
    runInv_runOps h hB hinj m0 ops
  rcases hrun : runOps h B m0 ops with ⟨s, mem, caps⟩
  simp only [hrun] at hbs hbase hT hhl hmem hclen hsize hcaps hhash hreplay hk ⊢
  have hres := restore_nat_spec s mem k hbase hk
  rw [hbs, writeMem_zero_full (by rw [hmem])] at hres
  refine ⟨applyCheckpoints B (s.checkpoints.take (k + 1)) m0, hres, ?_, ?_⟩
  · exact hreplay k (by omega)
  · intro addr _
    rw [hreplay k (by omega)]

/-- Witness for C1 at a concrete trace: base `[0]`, write byte 7 at
address 0, capture a delta, then restore checkpoint 0. -/
theorem snapshot_roundtrip_restore_witness :
    0 < 1 ∧
    (∃ m' : List Byte,
      (runOps id 1 [0] [SnapOp.write 0 7, SnapOp.delta none]).1.restore
          (runOps id 1 [0] [SnapOp.write 0 7, SnapOp.delta none]).2.1 ((0 : Nat) : Int) =
        .ok ((runOps id 1 [0] [SnapOp.write 0 7, SnapOp.delta none]).1, m',
             ([0] : List Byte).length) ∧
      m' = (runOps id 1 [0] [SnapOp.write 0 7, SnapOp.delta none]).2.2.getD 0 [] ∧
      ∀ addr : Nat,
        addr < ((runOps id 1 [0] [SnapOp.write 0 7, SnapOp.delta none]).1.checkpoints.getD
          0 default).memory_size →
        m'.getD addr 0 =
          ((runOps id 1 [0] [SnapOp.write 0 7, SnapOp.delta none]).2.2.getD 0 []).getD addr 0) :=
  ⟨Nat.one_pos, snapshot_roundtrip_restore id (fun a b hab => hab) Nat.one_pos [0]
    [SnapOp.write 0 7, SnapOp.delta none] 0 (by decide)⟩

theorem toolFoldFrom_spec {α : Type} (fs : List α) :
    ∀ handlers : List (Nat × α), handlers.map Prod.fst = List.range handlers.length →
    toolFoldFrom handlers fs = .ok (handlers ++ List.enumFrom handlers.length fs) := by
  induction fs with
  | nil =>
    intro handlers _
    show pure handlers = Except.ok (handlers ++ [])
    rw [List.append_nil]
    rfl
  | cons f rest ih =>
    intro handlers hkeys
    have hnc : (handlers.map Prod.fst).contains handlers.length = false := by
      rw [hkeys]
      simp
    have hstep : PyBox.tool handlers f = .ok (handlers ++ [(handlers.length, f)], handlers.length) := by
      unfold PyBox.tool registerHandler
      simp only []
      rw [hnc]
      rfl
    have hkeys' : (handlers ++ [(handlers.length, f)]).map Prod.fst =
        List.range (handlers ++ [(handlers.length, f)]).length := by
      rw [List.map_append, List.length_append, hkeys]
      show List.range handlers.length ++ [handlers.length] = List.range (handlers.length + 1)
      rw [List.range_succ]
    show List.foldlM (fun hs f => (PyBox.tool hs f).map Prod.fst) handlers (f :: rest) = _
    rw [List.foldlM_cons, hstep]
    show toolFoldFrom (handlers ++ [(handlers.length, f)]) rest = _
    rw [ih _ hkeys', List.enumFrom_cons]
    rw [List.length_append, List.append_assoc]
    rfl

/-- C2: Handle allocation.  Registering `n` tools in sequence on one
engine starting from the empty registry succeeds throughout and leaves
the registry `[(0, f₀), (1, f₁), …]`: the i-th registration is
assigned handle `i`, the registry size at the moment it was
registered, so handles are dense from zero.  Registering a handle
already present fails with *Conflict*. -/
theorem tool_handles_dense_and_conflict {α : Type} (fs : List α)
    (reg : List (Nat × α)) (handle : Nat) (f : α) :
    toolFoldFrom [] fs = .ok (List.enumFrom 0 fs) ∧
    (∀ i : Nat, (List.enumFrom 0 fs)[i]? = fs[i]?.map (fun g => (i, g))) ∧
    (registerHandler reg handle f = .error .Conflict ↔ handle ∈ reg.map Prod.fst) := by
  refine ⟨?_, ?_, ?_⟩
  · have := toolFoldFrom_spec fs [] rfl
    rw [List.nil_append] at this
    exact this
  · intro i
    rw [List.getElem?_enumFrom]
    cases fs[i]? with
    | none => rfl
    | some g =>
      rw [Option.map_some', Option.map_some', Nat.zero_add]
  · unfold registerHandler
    by_cases hc : (reg.map Prod.fst).contains handle
    · rw [if_pos hc]
      constructor
      · intro _
        simpa using hc
      · intro _
        rfl
    · rw [if_neg hc]
      constructor
      · intro hcontra
        exact absurd hcontra (by simp)
      · intro hmm
        exact absurd (by simpa using hmm) hc

/-- C3 (code bug, failing input): engine with base `[0]` (block size 1)
and exactly one checkpoint, whose dirty block holds `[9]`.  With
`steps = 1 = len(checkpoints)`, the claim (and the code's own comment
"Rollback to base state") require the base image `[0]`; but the clamp
passes `-1` to `restore`, which resolves `-1` to the *latest*
checkpoint, so the call returns with guest memory `[9]` — no rollback
happened at all. -/
theorem rollback_clamp_failing_input :
    (((WASMSnapshot.init 1).capture_base id [0]).1.capture_delta id [9] none =
      .ok (⟨1, some [0], [[9]], [⟨none, [(0, [9])], 1, 1⟩], 1⟩, 1, 1)) ∧
    ((⟨1, some [0], [[9]], [⟨none, [(0, [9])], 1, 1⟩], 1⟩ : WASMSnapshot).rollback [9] 1 =
      .ok (⟨1, some [0], [[9]], [⟨none, [(0, [9])], 1, 1⟩], 1⟩, [9], 1)) ∧
    ([9] : List Byte) ≠ [0] :=
  ⟨rfl, rfl, by decide⟩

/-- C4 (counterexample): `capture_base` has no already-captured check.
After capturing base `[1, 2]`, a second `capture_base` on memory
`[3, 4, 5]` succeeds and replaces the stored base image and block-hash
vector, instead of failing with NotReady and leaving them unchanged. -/
theorem capture_base_twice_counterexample :
    (((WASMSnapshot.init 2).capture_base id [1, 2]).1.capture_base id [3, 4, 5] =
      (⟨2, some [3, 4, 5], [[3, 4], [5]], [], 2⟩, 3)) ∧
    some ([3, 4, 5] : List Byte) ≠ some ([1, 2] : List Byte) :=
  ⟨rfl, by decide⟩

/-- C4 (amended): a second `capture_base` without reset does not fail:
it replaces the base image with a copy of the current memory,
recomputes the block-hash vector (one digest per block of the new
base) and the block count, and leaves the checkpoint stack unchanged. -/
theorem capture_base_overwrites (h : List Byte → List Byte) (s : WASMSnapshot)
    (mem : List Byte) :
    (s.capture_base h mem).2 = mem.length ∧
    (s.capture_base h mem).1.checkpoints = s.checkpoints ∧
    (s.capture_base h mem).1.base_memory = some mem ∧
    (s.capture_base h mem).1.block_hashes.length = numBlocks s.block_size mem.length ∧
    ∀ i, i < numBlocks s.block_size mem.length →
      (s.capture_base h mem).1.block_hashes[i]? = some (h (blockOf s.block_size mem i)) := by
  refine ⟨rfl, rfl, rfl, computeBlockHashes_length h s.block_size mem, ?_⟩
  intro i hi
  show (computeBlockHashes h s.block_size mem)[i]? = _
  rw [computeBlockHashes_getElem?, if_pos hi]

/-- C6 (counterexample): with a captured base and zero checkpoints,
`restore` skips index validation entirely — index `5` lies outside
`[-1-0, 0)`, yet the call succeeds and writes the base image, instead
of failing with OutOfRange as the claim requires. -/
theorem restore_empty_ignores_index_counterexample :
    ((⟨1, some [5], [[5]], [], 1⟩ : WASMSnapshot).restore [9] 5 =
      .ok (⟨1, some [5], [[5]], [], 1⟩, [5], 1)) ∧
    ¬(-1 - (0 : Int) ≤ 5 ∧ (5 : Int) < 0) :=
  ⟨rfl, by decide⟩

/-- C8 (counterexample): block size 2, base `[5]` (one tracked block).
`capture_delta` on the longer memory `[7, 7]` does not extend the base
image — `ceil(2/2) = 1` equals the tracked block count, so the
expansion branch is not taken, contradicting the claim's
"whenever guest memory is longer than the current base" trigger. -/
theorem expand_trigger_counterexample :
    (((WASMSnapshot.init 2).capture_base id [5]).1.capture_delta id [7, 7] none =
      .ok (⟨2, some [5], [[7, 7]], [⟨none, [(0, [7, 7])], 2, 1⟩], 1⟩, 1, 2)) ∧
    ([5] : List Byte).length < ([7, 7] : List Byte).length :=
  ⟨rfl, by decide⟩

/-- C6 (amended): with a captured base and at least one checkpoint,
`restore(mem, index)` fails with OutOfRange exactly when `index` lies
outside `[-1-len, len)`; every in-range index succeeds, `-1` resolves
to the latest checkpoint, and `-1-len` rewrites the guest memory to
the base image alone.  With zero checkpoints, `restore` skips the
validation and restores the base image whatever the index. -/
theorem restore_index_validation (s : WASMSnapshot) {bm : List Byte}
    (mem : List Byte) (idx : Int) (hbase : s.base_memory = some bm) :
    (s.checkpoints ≠ [] →
      ((s.restore mem idx = .error .OutOfRange ↔
        (idx < -1 - s.checkpoints.length ∨ (s.checkpoints.length : Int) ≤ idx)) ∧
       ((∃ r, s.restore mem idx = .ok r) ↔
        (-1 - s.checkpoints.length ≤ idx ∧ idx < (s.checkpoints.length : Int))) ∧
       s.restore mem (-1) = s.restore mem ((s.checkpoints.length : Int) - 1) ∧
       s.restore mem (-1 - s.checkpoints.length) =
         .ok (s, writeMem mem 0 bm, bm.length))) ∧
    (s.checkpoints = [] →
      s.restore mem idx = .ok (s, writeMem mem 0 bm, bm.length)) := by
  constructor
  · intro hne
    have hlen1 : 1 ≤ s.checkpoints.length := by
      cases hcs : s.checkpoints with
      | nil => exact absurd hcs hne
      | cons a l => rw [List.length_cons]; omega
    refine ⟨?_, ?_, ?_, ?_⟩
    · rw [restore_spec s mem bm idx hbase hne]
      by_cases hout : idx < -1 - s.checkpoints.length ∨ (s.checkpoints.length : Int) ≤ idx
      · rw [if_pos hout]
        exact ⟨fun _ => hout, fun _ => rfl⟩
      · rw [if_neg hout]
        constructor
        · intro hcontra
          exact absurd hcontra (by simp)
        · intro hcontra
          exact absurd hcontra hout
    · rw [restore_spec s mem bm idx hbase hne]
      by_cases hout : idx < -1 - s.checkpoints.length ∨ (s.checkpoints.length : Int) ≤ idx
      · rw [if_pos hout]
        constructor
        · intro ⟨r, hr⟩
          exact absurd hr (by simp)
        · intro hcontra
          omega
      · rw [if_neg hout]
        exact ⟨fun _ => by omega, fun _ => ⟨_, rfl⟩⟩
    · rw [restore_spec s mem bm _ hbase hne, restore_spec s mem bm _ hbase hne]
      rw [if_neg (show ¬ ((-1 : Int) < -1 - s.checkpoints.length ∨
            (s.checkpoints.length : Int) ≤ -1) by omega)]
      rw [if_neg (show ¬ ((s.checkpoints.length : Int) - 1 < -1 - s.checkpoints.length ∨
            (s.checkpoints.length : Int) ≤ (s.checkpoints.length : Int) - 1) by omega)]
      rw [if_pos (show (-1 : Int) < 0 by omega)]
      rw [if_neg (show ¬ ((s.checkpoints.length : Int) - 1 < 0) by omega)]
      have harith : (-1 + (s.checkpoints.length : Int) + 1).toNat =
          ((s.checkpoints.length : Int) - 1 + 1).toNat := by omega
      rw [harith]
    · rw [restore_spec s mem bm _ hbase hne, if_neg (by omega),
          if_pos (by omega : (-1 - (s.checkpoints.length : Int)) < 0)]
      have harith : (-1 - (s.checkpoints.length : Int) + s.checkpoints.length + 1).toNat = 0 := by
        omega
      rw [harith]
      rfl
  · intro hemp
    unfold WASMSnapshot.restore
    rw [hbase]
    simp only []
    rw [if_pos (by rw [hemp]; rfl)]

/-- Witness for the amended C6 at a concrete engine state. -/
theorem restore_index_validation_witness :
    c6State.base_memory = some [0] ∧
    ((c6State.checkpoints ≠ [] →
      ((c6State.restore [9] 0 = .error .OutOfRange ↔
        ((0 : Int) < -1 - c6State.checkpoints.length ∨
          (c6State.checkpoints.length : Int) ≤ 0)) ∧
       ((∃ r, c6State.restore [9] 0 = .ok r) ↔
        (-1 - (c6State.checkpoints.length : Int) ≤ 0 ∧
          (0 : Int) < (c6State.checkpoints.length : Int))) ∧
       c6State.restore [9] (-1) =
         c6State.restore [9] ((c6State.checkpoints.length : Int) - 1) ∧
       c6State.restore [9] (-1 - c6State.checkpoints.length) =
         .ok (c6State, writeMem [9] 0 [0], ([0] : List Byte).length))) ∧
     (c6State.checkpoints = [] →
      c6State.restore [9] 0 = .ok (c6State, writeMem [9] 0 [0], ([0] : List Byte).length))) :=
  ⟨rfl, restore_index_validation c6State [9] 0 rfl⟩

/-- C7: Handler marshalling and escape.  For a decoded request record
whose `args` is a list and `kwargs` a mapping, the JSON-RPC handler
applies the callback to them; a returned value is encoded as the JSON
bytes of `{result: value}`; a normal exception is encoded as
`{exception: "<TypeName>: <message>"}` and nothing is raised; the
host-escape exception (`PyboxException`) is re-raised as the very same
object and never encoded into a response. -/
theorem jsonrpc_handler_marshalling {E : Type}
    (cb : List JVal → List (String × JVal) → CallResult E)
    (fields : List (String × JVal)) (args : List JVal)
    (kwargs : List (String × JVal))
    (ha : (jLookup fields "args").getD (.arr []) = .arr args)
    (hk : (jLookup fields "kwargs").getD (.obj []) = .obj kwargs) :
    (∀ v, cb args kwargs = .val v →
      handlerImpl cb (.obj fields) = .ok (dumpJ (.obj [("result", v)]))) ∧
    (∀ en em, cb args kwargs = .exc en em →
      handlerImpl cb (.obj fields) =
        .ok (dumpJ (.obj [("exception", .str (en ++ ": " ++ em))]))) ∧
    (∀ e, cb args kwargs = .escape e → handlerImpl cb (.obj fields) = .error e) := by
  refine ⟨?_, ?_, ?_⟩
  · intro v hv
    unfold handlerImpl
    simp only []
    rw [ha, hk]
    simp only []
    rw [hv]
  · intro en em hexc
    unfold handlerImpl
    simp only []
    rw [ha, hk]
    simp only []
    rw [hexc]
  · intro e hesc
    unfold handlerImpl
    simp only []
    rw [ha, hk]
    simp only []
    rw [hesc]

/-- Witness for C7: request `{args: [1], kwargs: {}}` against a
callback echoing its argument list. -/
theorem jsonrpc_handler_marshalling_witness :
    ((jLookup [("args", JVal.arr [JVal.num 1]), ("kwargs", JVal.obj [])] "args").getD
       (.arr []) = JVal.arr [JVal.num 1]) ∧
    ((jLookup [("args", JVal.arr [JVal.num 1]), ("kwargs", JVal.obj [])] "kwargs").getD
       (.obj []) = JVal.obj []) ∧
    handlerImpl (E := Unit) (fun as _ => .val (.arr as))
        (.obj [("args", JVal.arr [JVal.num 1]), ("kwargs", JVal.obj [])]) =
      .ok (dumpJ (.obj [("result", JVal.arr [JVal.num 1])])) :=
  ⟨rfl, rfl,
    (jsonrpc_handler_marshalling (fun as _ => .val (.arr as))
      [("args", JVal.arr [JVal.num 1]), ("kwargs", JVal.obj [])]
      [JVal.num 1] [] rfl rfl).1 (JVal.arr [JVal.num 1]) rfl⟩

/-- C5: Dirty-block accounting.  On a state whose bookkeeping matches
its base image, `capture_delta` returns a dirty count equal to the
number of blocks of the live memory whose digest differs from the
corresponding entry of the block-hash vector as it stood at the start
of the call, appends a checkpoint holding exactly those blocks'
contents, updates each such hash entry in place to the new digest, and
leaves the non-differing entries unchanged. -/
theorem capture_delta_dirty_accounting (h : List Byte → List Byte) {B : Nat}
    (hB : 0 < B) {s : WASMSnapshot} {bm : List Byte} (mem : List Byte)
    (name : Option String)
    (hbs : s.block_size = B) (hbase : s.base_memory = some bm)
    (hT : s.total_blocks = numBlocks B bm.length)
    (hhl : s.block_hashes.length = s.total_blocks) :
    ∃ s' cnt bytes,
      s.capture_delta h mem name = .ok (s', cnt, bytes) ∧
      cnt = ((List.range (min (numBlocks B mem.length) s.total_blocks)).filter
        (fun i => decide (h (blockOf B mem i) ≠ s.block_hashes.getD i []))).length ∧
      s'.checkpoints = s.checkpoints ++
        [⟨name, dirtyList h B mem s.block_hashes
            (min (numBlocks B mem.length) s.total_blocks), mem.length, cnt⟩] ∧
      (∀ i, i < min (numBlocks B mem.length) s.total_blocks →
        h (blockOf B mem i) ≠ s.block_hashes.getD i [] →
        s'.block_hashes.getD i [] = h (blockOf B mem i)) ∧
      (∀ i, i < min (numBlocks B mem.length) s.total_blocks →
        h (blockOf B mem i) = s.block_hashes.getD i [] →
        s'.block_hashes.getD i [] = s.block_hashes.getD i []) := by
  obtain ⟨hs2, heq, hl2, hchar⟩ := capture_delta_spec h hB mem name hbs hbase hT hhl
  refine ⟨_, _, _, heq, ?_, ?_, ?_, ?_⟩
  · show (deltaCheckpoint h B mem s.block_hashes
      (min (numBlocks B mem.length) s.total_blocks) name).dirty_count = _
    unfold deltaCheckpoint
    rw [dirtyList_length]
  · show s.checkpoints ++ [deltaCheckpoint h B mem s.block_hashes
      (min (numBlocks B mem.length) s.total_blocks) name] = _
    unfold deltaCheckpoint
    rw [dirtyList_length]
  · intro i hi _
    show hs2.getD i [] = _
    apply getD_of_getElem?
    rw [hchar i, if_pos (by omega)]
  · intro i hi hsame
    show hs2.getD i [] = _
    rw [← hsame]
    apply getD_of_getElem?
    rw [hchar i, if_pos (by omega)]

/-- C8 (amended): whenever `capture_delta` runs with the live memory
spanning more blocks than tracked (`ceil(len(mem)/B) > total_blocks`),
the base image is first extended to the live memory's length by
copying the live tail into the extension, one digest per newly covered
block is appended (the digest of the corresponding live block), and no
block at or beyond the old block count appears in the new checkpoint's
dirty map. -/
theorem capture_delta_growth (h : List Byte → List Byte) {B : Nat} (hB : 0 < B)
    {s : WASMSnapshot} {bm : List Byte} (mem : List Byte) (name : Option String)
    (hbs : s.block_size = B) (hbase : s.base_memory = some bm)
    (hT : s.total_blocks = numBlocks B bm.length)
    (hhl : s.block_hashes.length = s.total_blocks)
    (hgrow : s.total_blocks < numBlocks B mem.length) :
    ∃ s' cnt bytes,
      s.capture_delta h mem name = .ok (s', cnt, bytes) ∧
      s'.base_memory = some (bm ++ mem.drop bm.length) ∧
      (bm ++ mem.drop bm.length).length = mem.length ∧
      s'.block_hashes.length = numBlocks B mem.length ∧
      (∀ i, s.total_blocks ≤ i → i < numBlocks B mem.length →
        s'.block_hashes[i]? = some (h (blockOf B mem i))) ∧
      s'.checkpoints = s.checkpoints ++
        [deltaCheckpoint h B mem s.block_hashes s.total_blocks name] ∧
      (∀ p ∈ (deltaCheckpoint h B mem s.block_hashes s.total_blocks name).dirty_blocks,
        p.1 < s.total_blocks) := by
  obtain ⟨hs2, heq, hl2, hchar⟩ := capture_delta_spec h hB mem name hbs hbase hT hhl
  rw [if_pos hgrow, Nat.min_eq_right (Nat.le_of_lt hgrow),
      Nat.max_eq_right (Nat.le_of_lt hgrow)] at heq
  rw [Nat.max_eq_right (Nat.le_of_lt hgrow)] at hl2
  have hlt : bm.length < mem.length := lt_of_numBlocks_lt hB (by rw [← hT]; exact hgrow)
  refine ⟨_, _, _, heq, rfl, ?_, hl2, ?_, rfl, ?_⟩
  · rw [List.length_append, List.length_drop]
    omega
  · intro i _ h2
    rw [hchar i, if_pos h2]
  · intro p hp
    exact (dirtyList_mem.mp hp).1

/-- The method `restore` never mutates the engine: every successful call returns
the state it was given. -/
theorem restore_state_eq {s : WASMSnapshot} {mem : List Byte} {k : Int}
    {s' : WASMSnapshot} {m' : List Byte} {sz : Nat}
    (hres : s.restore mem k = .ok (s', m', sz)) : s' = s := by
  unfold WASMSnapshot.restore at hres
  cases hbase : s.base_memory with
  | none =>
    rw [hbase] at hres
    exact absurd hres (by simp)
  | some bm =>
    rw [hbase] at hres
    simp only [] at hres
    repeat' split at hres
    all_goals first
      | (simp only [Except.ok.injEq, Prod.mk.injEq] at hres
         exact hres.1.symm)
      | exact absurd hres (by simp)

/-- C9: Restore leaves tracking state unchanged.  A successful
`restore` modifies neither the block-hash vector, the base image, nor
the checkpoint stack, and the first `capture_delta` issued afterwards
reports as dirty exactly the blocks of the post-restore memory whose
digest differs from the hashes recorded before the restore. -/
theorem restore_frame_and_drift (h : List Byte → List Byte) {B : Nat}
    (hB : 0 < B) {s : WASMSnapshot} {bm : List Byte} (mem : List Byte) (k : Int)
    (name : Option String)
    (hbs : s.block_size = B) (hbase : s.base_memory = some bm)
    (hT : s.total_blocks = numBlocks B bm.length)
    (hhl : s.block_hashes.length = s.total_blocks)
    {s' : WASMSnapshot} {m' : List Byte} {sz : Nat}
    (hres : s.restore mem k = .ok (s', m', sz)) :
    s'.block_hashes = s.block_hashes ∧ s'.base_memory = s.base_memory ∧
    s'.checkpoints = s.checkpoints ∧
    ∃ s2 cnt bytes,
      s'.capture_delta h m' name = .ok (s2, cnt, bytes) ∧
      cnt = ((List.range (min (numBlocks B m'.length) s.total_blocks)).filter
        (fun i => decide (h (blockOf B m' i) ≠ s.block_hashes.getD i []))).length ∧
      s2.checkpoints = s'.checkpoints ++
        [⟨name, dirtyList h B m' s.block_hashes
            (min (numBlocks B m'.length) s.total_blocks), m'.length, cnt⟩] := by
  have hse : s' = s := restore_state_eq hres
  subst hse
  refine ⟨rfl, rfl, rfl, ?_⟩
  obtain ⟨hs2, heq, hl2, hchar⟩ := capture_delta_spec h hB m' name hbs hbase hT hhl
  refine ⟨_, _, _, heq, ?_, ?_⟩
  · show (deltaCheckpoint h B m' s'.block_hashes
      (min (numBlocks B m'.length) s'.total_blocks) name).dirty_count = _
    unfold deltaCheckpoint
    rw [dirtyList_length]
  · show s'.checkpoints ++ [deltaCheckpoint h B m' s'.block_hashes
      (min (numBlocks B m'.length) s'.total_blocks) name] = _
    unfold deltaCheckpoint
    rw [dirtyList_length]

/-- C10: Idle delta is empty.  After any `capture_delta`, a second
`capture_delta` on the unchanged guest memory returns `(0, 0)` and
appends a checkpoint whose dirty map is empty, leaving the base image
and the block-hash vector exactly as they were. -/
theorem idle_delta_empty (h : List Byte → List Byte) {B : Nat} (hB : 0 < B)
    {s : WASMSnapshot} {bm : List Byte} (mem : List Byte) (n1 n2 : Option String)
    (hbs : s.block_size = B) (hbase : s.base_memory = some bm)
    (hT : s.total_blocks = numBlocks B bm.length)
    (hhl : s.block_hashes.length = s.total_blocks)
    {s1 : WASMSnapshot} {c1 b1 : Nat}
    (hfirst : s.capture_delta h mem n1 = .ok (s1, c1, b1)) :
    ∃ s2, s1.capture_delta h mem n2 = .ok (s2, 0, 0) ∧
      s2.base_memory = s1.base_memory ∧
      s2.block_hashes = s1.block_hashes ∧
      s2.checkpoints = s1.checkpoints ++ [⟨n2, [], mem.length, 0⟩] := by
  obtain ⟨hs2, heq, hl2, hchar⟩ := capture_delta_spec h hB mem n1 hbs hbase hT hhl
  have hcmb := hfirst.symm.trans heq
  simp only [Except.ok.injEq, Prod.mk.injEq] at hcmb
  obtain ⟨hs1eq, -⟩ := hcmb
  have hbs1 : s1.block_size = B := by rw [hs1eq]
  have hbase1 : s1.base_memory =
      some (if s.total_blocks < numBlocks B mem.length
            then bm ++ mem.drop bm.length else bm) := by rw [hs1eq]
  have hbh1 : s1.block_hashes = hs2 := by rw [hs1eq]
  have ht1 : s1.total_blocks = max s.total_blocks (numBlocks B mem.length) := by
    rw [hs1eq]
  have hT1 : s1.total_blocks = numBlocks B
      (if s.total_blocks < numBlocks B mem.length
       then bm ++ mem.drop bm.length else bm).length := by
    rw [ht1]
    by_cases hgrow : s.total_blocks < numBlocks B mem.length
    · have hlt : bm.length < mem.length :=
        lt_of_numBlocks_lt hB (by rw [← hT]; exact hgrow)
      rw [if_pos hgrow, Nat.max_eq_right (Nat.le_of_lt hgrow), List.length_append,
          List.length_drop]
      congr 1
      omega
    · rw [if_neg hgrow, Nat.max_eq_left (by omega), hT]
  have hhl1 : s1.block_hashes.length = s1.total_blocks := by
    rw [hbh1, hl2, ht1]
  obtain ⟨hs3, heq2, hl3, hchar2⟩ := capture_delta_spec h hB mem n2 hbs1 hbase1 hT1 hhl1
  rw [if_neg (by rw [ht1]; omega), Nat.min_eq_left (by rw [ht1]; omega),
      Nat.max_eq_left (by rw [ht1]; omega)] at heq2
  have hdirty : dirtyList h B mem s1.block_hashes (numBlocks B mem.length) = [] := by
    unfold dirtyList
    rw [List.filter_eq_nil_iff.mpr, List.map_nil]
    intro i hi
    rw [List.mem_range] at hi
    have hgd : s1.block_hashes.getD i [] = h (blockOf B mem i) := by
      rw [hbh1]
      exact getD_of_getElem? (by rw [hchar i, if_pos hi])
    rw [List.getD_eq_getElem?_getD] at hgd
    simp [hgd]
  have hcp : deltaCheckpoint h B mem s1.block_hashes (numBlocks B mem.length) n2 =
      ⟨n2, [], mem.length, 0⟩ := by
    unfold deltaCheckpoint
    rw [hdirty]
    rfl
  rw [hcp] at heq2
  have hhs : hs3 = s1.block_hashes := by
    apply List.ext_getElem?
    intro j
    rw [hchar2 j]
    by_cases hj : j < numBlocks B mem.length
    · rw [if_pos hj, hbh1]
      have hcj := hchar j
      rw [if_pos hj] at hcj
      rw [hcj]
    · rw [if_neg hj]
  refine ⟨_, heq2, hbase1.symm, hhs, rfl⟩

/-- Witness for C5: memory `[4, 9]` differs from the tracked state in
block 1 only. -/
theorem capture_delta_dirty_accounting_witness :
    c5State.base_memory = some [4, 5] ∧
    (∃ s' cnt bytes,
      c5State.capture_delta id [4, 9] none = .ok (s', cnt, bytes) ∧
      cnt = ((List.range (min (numBlocks 1 ([4, 9] : List Byte).length)
          c5State.total_blocks)).filter
        (fun i => decide (id (blockOf 1 [4, 9] i) ≠ c5State.block_hashes.getD i []))).length ∧
      s'.checkpoints = c5State.checkpoints ++
        [⟨none, dirtyList id 1 [4, 9] c5State.block_hashes
            (min (numBlocks 1 ([4, 9] : List Byte).length) c5State.total_blocks),
          ([4, 9] : List Byte).length, cnt⟩] ∧
      (∀ i, i < min (numBlocks 1 ([4, 9] : List Byte).length) c5State.total_blocks →
        id (blockOf 1 [4, 9] i) ≠ c5State.block_hashes.getD i [] →
        s'.block_hashes.getD i [] = id (blockOf 1 [4, 9] i)) ∧
      (∀ i, i < min (numBlocks 1 ([4, 9] : List Byte).length) c5State.total_blocks →
        id (blockOf 1 [4, 9] i) = c5State.block_hashes.getD i [] →
        s'.block_hashes.getD i [] = c5State.block_hashes.getD i [])) :=
  ⟨rfl, capture_delta_dirty_accounting id Nat.one_pos [4, 9] none rfl rfl rfl rfl⟩

/-- Witness for C8 (amended): memory `[4, 6]` spans two blocks, one
more than tracked, so the base expands. -/
theorem capture_delta_growth_witness :
    c8State.total_blocks < numBlocks 1 ([4, 6] : List Byte).length ∧
    (∃ s' cnt bytes,
      c8State.capture_delta id [4, 6] none = .ok (s', cnt, bytes) ∧
      s'.base_memory = some ([4] ++ ([4, 6] : List Byte).drop ([4] : List Byte).length) ∧
      (([4] : List Byte) ++ ([4, 6] : List Byte).drop ([4] : List Byte).length).length =
        ([4, 6] : List Byte).length ∧
      s'.block_hashes.length = numBlocks 1 ([4, 6] : List Byte).length ∧
      (∀ i, c8State.total_blocks ≤ i → i < numBlocks 1 ([4, 6] : List Byte).length →
        s'.block_hashes[i]? = some (id (blockOf 1 [4, 6] i))) ∧
      s'.checkpoints = c8State.checkpoints ++
        [deltaCheckpoint id 1 [4, 6] c8State.block_hashes c8State.total_blocks none] ∧
      (∀ p ∈ (deltaCheckpoint id 1 [4, 6] c8State.block_hashes
          c8State.total_blocks none).dirty_blocks, p.1 < c8State.total_blocks)) :=
  ⟨by decide,
   capture_delta_growth id Nat.one_pos [4, 6] none rfl rfl rfl rfl (by decide)⟩

/-- Witness for C9: restoring checkpoint 0 onto memory `[3]` rewrites
it to `[9]` and leaves the engine unchanged. -/
theorem restore_frame_and_drift_witness :
    c9State.restore [3] 0 = .ok (c9State, [9], 1) ∧
    (c9State.block_hashes = c9State.block_hashes ∧
     c9State.base_memory = c9State.base_memory ∧
     c9State.checkpoints = c9State.checkpoints ∧
     ∃ s2 cnt bytes,
       c9State.capture_delta id [9] none = .ok (s2, cnt, bytes) ∧
       cnt = ((List.range (min (numBlocks 1 ([9] : List Byte).length)
           c9State.total_blocks)).filter
         (fun i => decide (id (blockOf 1 [9] i) ≠ c9State.block_hashes.getD i []))).length ∧
       s2.checkpoints = c9State.checkpoints ++
         [⟨none, dirtyList id 1 [9] c9State.block_hashes
             (min (numBlocks 1 ([9] : List Byte).length) c9State.total_blocks),
           ([9] : List Byte).length, cnt⟩]) :=
  ⟨rfl, restore_frame_and_drift id Nat.one_pos [3] 0 none rfl rfl rfl rfl rfl⟩

/-- Witness for C10: a first delta on memory `[7]` captures block 0;
the second delta on the same memory is empty. -/
theorem idle_delta_empty_witness :
    c10State.capture_delta id [7] none =
      .ok (⟨1, some [4], [[7]], [⟨none, [(0, [7])], 1, 1⟩], 1⟩, 1, 1) ∧
    (∃ s2, (⟨1, some [4], [[7]], [⟨none, [(0, [7])], 1, 1⟩], 1⟩ : WASMSnapshot).capture_delta
        id [7] none = .ok (s2, 0, 0) ∧
      s2.base_memory =
        (⟨1, some [4], [[7]], [⟨none, [(0, [7])], 1, 1⟩], 1⟩ : WASMSnapshot).base_memory ∧
      s2.block_hashes =
        (⟨1, some [4], [[7]], [⟨none, [(0, [7])], 1, 1⟩], 1⟩ : WASMSnapshot).block_hashes ∧
      s2.checkpoints =
        (⟨1, some [4], [[7]], [⟨none, [(0, [7])], 1, 1⟩], 1⟩ : WASMSnapshot).checkpoints ++
          [⟨none, [], ([7] : List Byte).length, 0⟩]) :=
  ⟨rfl, idle_delta_empty (s := c10State) id Nat.one_pos [7] none none rfl rfl rfl rfl rfl⟩
